import Mathlib

/-!
Verification of the fixed-dimension matrix primitive from `src/matrix.rs`.

The Rust type `Matrix<const ROWS, const COLS>` stores its `ROWS * COLS`
`f64` elements in a flat array in column-major order.  We embed it as a
structure carrying a flat list together with its length invariant; the two
const generics become explicit `Nat` parameters.

The element type `f64` is embedded as an abstract scalar type `α` carrying
exactly the operations the code uses (`0.0`, `1.0`, `+`, `*`, `==`); no
algebraic law (associativity, commutativity, ...) is assumed, so theorems
proved over `α` hold in particular for IEEE double arithmetic, whose
operations satisfy none of those laws.  Claims that depend on IEEE-specific
behaviour of equality (`NaN != NaN`, `-0.0 == +0.0`) or of the
non-finite values are settled over the model `F64` defined below, which
represents `NaN`, the signed infinities and `-0.0` explicitly and
implements the IEEE rules for them exactly.

Rust panics are embedded as `Except String`; `Option`-returning Rust
functions become `Option`-returning Lean functions.
-/

namespace CjMatrixFun

/-- Embedding of `Matrix<ROWS, COLS>` from `src/matrix.rs`: the elements of
the matrix, stored in column-major order, in a flat buffer of length
`ROWS * COLS`. -/
structure Matrix (R C : Nat) (α : Type) where
  elems : List α
  size_eq : elems.length = R * C

namespace Matrix

variable {R C : Nat} {α : Type}

/-- Source helper `Matrix::index`: the column-major array index of the
element at the provided row and column; `none` if the row or column is out
of bounds.  (`if row < ROWS && col < COLS { Some(col * ROWS + row) } else { None }`.) -/
def index (R C row col : Nat) : Option Nat :=
  if row < R && col < C then some (col * R + row) else none

/-- Source helper `Matrix::bounds_panic`: the message of the out-of-bounds
panic, `"matrix index {row},{col} out of bounds for matrix of size {ROWS}x{COLS}"`. -/
def bounds_panic_msg (R C row col : Nat) : String :=
  "matrix index " ++ toString row ++ "," ++ toString col ++
    " out of bounds for matrix of size " ++ toString R ++ "x" ++ toString C

/-- `Matrix::from_array`: wraps a buffer of statically known size `R*C`
directly as the backing store (the length invariant plays the role of the
Rust array type `[f64; ROWS * COLS]`). -/
def from_array (elems : List α) (h : elems.length = R * C) : Matrix R C α :=
  ⟨elems, h⟩

/-- `Matrix::from_slice`: `Some` matrix from the given column-major slice,
`None` if the size of the slice is not `ROWS*COLS` (the Rust
`elems.try_into().ok()` succeeds exactly on slices of length `ROWS*COLS`). -/
def from_slice (elems : List α) : Option (Matrix R C α) :=
  if h : elems.length = R * C then some (from_array elems h) else none

/-- `Matrix::filled`: a matrix with the provided value as every element. -/
def filled (v : α) : Matrix R C α :=
  ⟨List.replicate (R * C) v, List.length_replicate _ _⟩

/-- `Matrix::empty`: a matrix with every element `0.0`. -/
def empty [Zero α] : Matrix R C α :=
  filled 0

/-- Total view of the in-bounds element read `self[(row, col)]` (i.e. of the
reference returned by `get`/`get_unsafe`): the backing buffer at the
column-major index `col * R + row`.  The default value `0` is never reached
on in-bounds indices; `get_eq_entry` below ties this function to the
`Option`-returning accessor. -/
def entry [Zero α] (m : Matrix R C α) (row col : Nat) : α :=
  m.elems.getD (col * R + row) 0

/-- Total view of the in-bounds element write `self[(row, col)] = v`
(i.e. of a write through the mutable reference returned by
`get_mut`/`get_mut_unsafe`): sets the backing buffer at the column-major
index `col * R + row`. -/
def setEntry (m : Matrix R C α) (row col : Nat) (v : α) : Matrix R C α :=
  ⟨m.elems.set (col * R + row) v, by rw [List.length_set]; exact m.size_eq⟩

/-- `Matrix::get`: `Some` reference to the element at the provided row and
column location, or `None` if out of bounds
(`Self::index(row, col).map(|index| &self.elems[index])`). -/
def get [Zero α] (m : Matrix R C α) (row col : Nat) : Option α :=
  (index R C row col).map fun i => m.elems.getD i 0

/-- `Matrix::get_mut`, observed through the write it enables: `Some` updated
matrix in which the slot addressed by the returned mutable reference holds
`v`, or `None` if out of bounds.  Addresses the same
`Self::index(row, col)` slot as `get`. -/
def setViaGetMut (m : Matrix R C α) (row col : Nat) (v : α) :
    Option (Matrix R C α) :=
  (index R C row col).map fun i =>
    ⟨m.elems.set i v, by rw [List.length_set]; exact m.size_eq⟩

/-- `Matrix::get_unsafe` (named `getOrPanic` in the spec): the element at
the provided row and column, panicking (modelled as `Except.error` carrying
the panic message) when out of bounds. -/
def getOrPanic [Zero α] (m : Matrix R C α) (row col : Nat) : Except String α :=
  match index R C row col with
  | some i => .ok (m.elems.getD i 0)
  | none => .error (bounds_panic_msg R C row col)

/-- `Matrix::get_mut_unsafe`, observed through the write it enables: the
updated matrix, panicking (modelled as `Except.error` carrying the panic
message) when out of bounds. -/
def setOrPanic (m : Matrix R C α) (row col : Nat) (v : α) :
    Except String (Matrix R C α) :=
  match index R C row col with
  | some i => .ok ⟨m.elems.set i v, by rw [List.length_set]; exact m.size_eq⟩
  | none => .error (bounds_panic_msg R C row col)

/-- The `Index<(usize, usize)>` impl: `self.get_unsafe(index.0, index.1)`. -/
def indexTuple [Zero α] (m : Matrix R C α) (p : Nat × Nat) : Except String α :=
  getOrPanic m p.1 p.2

/-- The `IndexMut<(usize, usize)>` impl, observed through the write it
enables: `self.get_mut_unsafe(index.0, index.1)`. -/
def indexTupleSet (m : Matrix R C α) (p : Nat × Nat) (v : α) :
    Except String (Matrix R C α) :=
  setOrPanic m p.1 p.2 v

/-- `Matrix::identity_elems`: start from `empty` and write the given value
down the matrix diagonal, `matrix[(i, i)] = elem` for `i in 0..ROWS.min(COLS)`. -/
def identity_elems [Zero α] (v : α) : Matrix R C α :=
  (List.range (Nat.min R C)).foldl (fun m i => setEntry m i i v) empty

/-- `Matrix::identity`: `identity_elems(1.0)`. -/
def identity [Zero α] [One α] : Matrix R C α :=
  identity_elems 1

/-- The `Default` impl: `Self::identity()`. -/
def default (R C : Nat) (α : Type) [Zero α] [One α] : Matrix R C α :=
  identity

/-- `Matrix::cols`: the columns of the matrix, the `ci`-th being
`Vector::from_slice(&self.elems[ci*ROWS..(ci*ROWS + ROWS)]).unwrap()`.
The `unwrap` is modelled by `.getD empty`; the slice always has length
`ROWS`, so the default is never reached (the source carries the same
argument as a `SAFETY` comment). -/
def cols [Zero α] (m : Matrix R C α) : List (Matrix R 1 α) :=
  (List.range C).map fun ci =>
    (from_slice ((m.elems.drop (ci * R)).take R)).getD empty

/-- `Matrix::from_cols`: build a matrix from an array of column arrays by
flattening (`Self::from_slice(columns.flatten())`).  The Rust input type
`[[f64; ROWS]; COLS]` is statically sized, making the source's `unwrap`
safe; over lists the same construction is the fallible `from_slice` of the
concatenation. -/
def from_cols (columns : List (List α)) : Option (Matrix R C α) :=
  from_slice columns.flatten

/-- The `PartialEq` impl: `self.elems.eq(&other.elems)`, elementwise `==`
on the backing buffers. -/
def matEq [BEq α] (a b : Matrix R C α) : Bool :=
  a.elems == b.elems

/-- `Mul<Matrix<A_COL_B_ROW, B_COL>> for Matrix<A_ROW, A_COL_B_ROW>`:
start from `Matrix::empty()` and, for each output column and row, write
the running sum `sum = Σ cell, self[(row, cell)] * rhs[(cell, col)]`,
accumulated left-to-right from `0.0`. -/
def mul {AR K BC : Nat} [Zero α] [Add α] [Mul α]
    (a : Matrix AR K α) (b : Matrix K BC α) : Matrix AR BC α :=
  (List.range BC).foldl
    (fun m col =>
      (List.range AR).foldl
        (fun m' row =>
          setEntry m' row col
            ((List.range K).foldl
              (fun sum cell => sum + entry a row cell * entry b cell col) 0))
        m)
    empty

end Matrix

/-- Model of the IEEE-754 double values that the claims observe: `NaN`, the
two infinities (`inf b` with `b = true` for `-∞`), the negative zero, and
exactly-representable finite values (carried as exact rationals; `fin 0` is
`+0.0`).  Rounding is outside the model: every claim settled over `F64`
only evaluates operations whose IEEE result is exact (`0.0 * x` and
`1.0 * x` for finite `x`, `x + (±0.0)`, `NaN` propagation, comparisons). -/
inductive F64 : Type where
  | nan : F64
  | inf : Bool → F64
  | negZero : F64
  | fin : ℚ → F64
  deriving DecidableEq

namespace F64

/-- Whether a modelled double is finite (neither `NaN` nor an infinity).
Both zeros are finite. -/
def isFinite : F64 → Bool
  | .nan => false
  | .inf _ => false
  | .negZero => true
  | .fin _ => true

/-- IEEE `==` on doubles: `NaN` compares unequal to everything (itself
included), the infinities compare equal only to the same-signed infinity,
and `-0.0 == +0.0` even though the two differ in bits. -/
def beq : F64 → F64 → Bool
  | .nan, _ => false
  | _, .nan => false
  | .inf s, .inf t => s == t
  | .inf _, _ => false
  | _, .inf _ => false
  | .negZero, .negZero => true
  | .negZero, .fin q => q == 0
  | .fin q, .negZero => q == 0
  | .fin a, .fin b => a == b

/-- IEEE `+` on the modelled values: `NaN` is absorbing, opposite-signed
infinities give `NaN` while an infinity absorbs anything else,
`-0.0 + -0.0 = -0.0`, a zero of either sign added to a finite value is
exact, and sums of finite values are taken exactly (in particular
`q + (-q) = +0.0`, as IEEE prescribes in round-to-nearest). -/
def add : F64 → F64 → F64
  | .nan, _ => .nan
  | _, .nan => .nan
  | .inf s, .inf t => if s == t then .inf s else .nan
  | .inf s, _ => .inf s
  | _, .inf t => .inf t
  | .negZero, .negZero => .negZero
  | .negZero, .fin q => .fin q
  | .fin q, .negZero => .fin q
  | .fin a, .fin b => .fin (a + b)

/-- IEEE `*` on the modelled values: `NaN` is absorbing, an infinity times
a zero of either sign is `NaN`, an infinity times anything else carries the
XOR of the operand signs, and a zero result likewise carries the XOR of the
operand signs (`-0.0 * q = -0.0` for `q ≥ 0`, `+0.0` for `q < 0`, and
symmetrically). -/
def mul : F64 → F64 → F64
  | .nan, _ => .nan
  | _, .nan => .nan
  | .inf s, .inf t => .inf (xor s t)
  | .inf _, .negZero => .nan
  | .negZero, .inf _ => .nan
  | .inf s, .fin q => if q = 0 then .nan else .inf (xor s (decide (q < 0)))
  | .fin q, .inf t => if q = 0 then .nan else .inf (xor (decide (q < 0)) t)
  | .negZero, .negZero => .fin 0
  | .negZero, .fin q => if 0 ≤ q then .negZero else .fin 0
  | .fin q, .negZero => if 0 ≤ q then .negZero else .fin 0
  | .fin a, .fin b =>
      if a * b = 0 then (if a < 0 ∨ b < 0 then .negZero else .fin 0)
      else .fin (a * b)

/-- The rational value of a finite model double (both zeros map to `0`;
the non-finite values are given the junk value `0`, never used). -/
def toQ : F64 → ℚ
  | .nan => 0
  | .inf _ => 0
  | .negZero => 0
  | .fin q => q

instance : Zero F64 := ⟨F64.fin 0⟩

instance : One F64 := ⟨F64.fin 1⟩

instance : Add F64 := ⟨F64.add⟩

instance : Mul F64 := ⟨F64.mul⟩

instance : BEq F64 := ⟨F64.beq⟩

end F64

/-! ## General list helper lemmas -/

theorem list_getD_eq {α : Type} (l : List α) (i : Nat) (d : α) (h : i < l.length) :
    l.getD i d = l.get ⟨i, h⟩ := by
  rw [List.getD_eq_getElem?_getD, List.getElem?_eq_getElem h]
  rfl

theorem list_getD_set_self {α : Type} (l : List α) (i : Nat) (v d : α)
    (h : i < l.length) : (l.set i v).getD i d = v := by
  rw [List.getD_eq_getElem?_getD, List.getElem?_set_self h]
  rfl

theorem list_getD_set_ne {α : Type} (l : List α) (i j : Nat) (v d : α)
    (h : i ≠ j) : (l.set i v).getD j d = l.getD j d := by
  rw [List.getD_eq_getElem?_getD, List.getElem?_set_ne h, List.getD_eq_getElem?_getD]

theorem list_getD_replicate {α : Type} (n i : Nat) (a d : α) (h : i < n) :
    (List.replicate n a).getD i d = a := by
  rw [List.getD_eq_getElem?_getD, List.getElem?_replicate_of_lt h]
  rfl

theorem list_getD_mem {α : Type} (l : List α) (i : Nat) (d : α) (h : i < l.length) :
    l.getD i d ∈ l := by
  rw [List.getD_eq_getElem?_getD, List.getElem?_eq_getElem h]
  exact List.getElem_mem h

/-! ## Column-major slot arithmetic -/

namespace Matrix

variable {R C : Nat} {α : Type}

theorem slot_lt {r c R C : Nat} (hr : r < R) (hc : c < C) : c * R + r < R * C := by
  have h1 : (c + 1) * R ≤ C * R := Nat.mul_le_mul_right R hc
  have h2 : (c + 1) * R = c * R + R := Nat.succ_mul c R
  have h3 : C * R = R * C := Nat.mul_comm C R
  omega

theorem slot_inj {r r' c c' R : Nat} (hr : r < R) (hr' : r' < R)
    (h : c * R + r = c' * R + r') : r = r' ∧ c = c' := by
  have h1 : (c * R + r) % R = (c' * R + r') % R := by rw [h]
  have h2 : (c * R + r) / R = (c' * R + r') / R := by rw [h]
  rw [Nat.mul_comm c R, Nat.mul_comm c' R, Nat.mul_add_mod, Nat.mul_add_mod,
    Nat.mod_eq_of_lt hr, Nat.mod_eq_of_lt hr'] at h1
  have hR : 0 < R := Nat.lt_of_le_of_lt (Nat.zero_le r) hr
  rw [Nat.mul_comm c R, Nat.mul_comm c' R] at h2
  rw [Nat.mul_add_div hR, Nat.mul_add_div hR,
    Nat.div_eq_of_lt hr, Nat.div_eq_of_lt hr'] at h2
  omega

/-! ## Entry / write lemmas -/

theorem entry_setEntry_self [Zero α] (m : Matrix R C α) (r c : Nat) (v : α)
    (hr : r < R) (hc : c < C) : entry (setEntry m r c v) r c = v := by
  have hlt : c * R + r < m.elems.length := by rw [m.size_eq]; exact slot_lt hr hc
  exact list_getD_set_self m.elems _ v 0 hlt

theorem entry_setEntry_ne [Zero α] (m : Matrix R C α) (r c r' c' : Nat) (v : α)
    (hr : r < R) (hr' : r' < R) (hne : ¬(r' = r ∧ c' = c)) :
    entry (setEntry m r c v) r' c' = entry m r' c' := by
  refine list_getD_set_ne m.elems _ _ v 0 fun h => hne ?_
  have := slot_inj hr hr' h
  exact ⟨this.1.symm, this.2.symm⟩

theorem entry_empty [Zero α] (r c : Nat) (hr : r < R) (hc : c < C) :
    entry (empty : Matrix R C α) r c = 0 :=
  list_getD_replicate _ _ _ _ (slot_lt hr hc)

theorem entry_mem [Zero α] (m : Matrix R C α) (r c : Nat) (hr : r < R) (hc : c < C) :
    entry m r c ∈ m.elems := by
  refine list_getD_mem m.elems _ 0 ?_
  rw [m.size_eq]
  exact slot_lt hr hc

theorem get_eq_entry [Zero α] (m : Matrix R C α) (r c : Nat) (hr : r < R) (hc : c < C) :
    get m r c = some (entry m r c) := by
  simp [get, index, hr, hc, entry]

/-! ## Loops of in-bounds writes -/

theorem entry_foldl_setdiag [Zero α] (l : List Nat) (m : Matrix R C α) (v : α)
    (r c : Nat) (hl : ∀ i ∈ l, i < R ∧ i < C) (hr : r < R) (hc : c < C) :
    entry (l.foldl (fun m i => setEntry m i i v) m) r c =
      if r = c ∧ r ∈ l then v else entry m r c := by
  induction l generalizing m with
  | nil => simp
  | cons i t ih =>
    have hi := hl i (List.mem_cons_self i t)
    rw [List.foldl_cons, ih _ fun x hx => hl x (List.mem_cons_of_mem i hx)]
    by_cases h1 : r = c ∧ r ∈ t
    · rw [if_pos h1, if_pos ⟨h1.1, List.mem_cons_of_mem i h1.2⟩]
    · rw [if_neg h1]
      by_cases h2 : r = c ∧ r = i
      · obtain ⟨hrc, hri⟩ := h2
        subst hrc
        subst hri
        rw [entry_setEntry_self m r r v hi.1 hi.2, if_pos ⟨rfl, List.mem_cons_self r t⟩]
      · rw [entry_setEntry_ne m i i r c v hi.1 hr
          fun h => h2 ⟨h.1.trans h.2.symm, h.1⟩]
        rw [if_neg fun h => ?_]
        rcases List.mem_cons.mp h.2 with h3 | h3
        · exact h2 ⟨h.1, h3⟩
        · exact h1 ⟨h.1, h3⟩

theorem entry_foldl_rows [Zero α] (l : List Nat) (m : Matrix R C α) (cc : Nat)
    (f : Nat → α) (r c : Nat) (hl : ∀ x ∈ l, x < R) (hcc : cc < C)
    (hr : r < R) (hc : c < C) :
    entry (l.foldl (fun m' row => setEntry m' row cc (f row)) m) r c =
      if r ∈ l ∧ c = cc then f r else entry m r c := by
  induction l generalizing m with
  | nil => simp
  | cons i t ih =>
    have hi := hl i (List.mem_cons_self i t)
    rw [List.foldl_cons, ih _ fun x hx => hl x (List.mem_cons_of_mem i hx)]
    by_cases h1 : r ∈ t ∧ c = cc
    · rw [if_pos h1, if_pos ⟨List.mem_cons_of_mem i h1.1, h1.2⟩]
    · rw [if_neg h1]
      by_cases h2 : r = i ∧ c = cc
      · obtain ⟨hri, hccc⟩ := h2
        subst hri
        subst hccc
        rw [entry_setEntry_self m r c (f r) hi hc,
          if_pos ⟨List.mem_cons_self r t, rfl⟩]
      · rw [entry_setEntry_ne m i cc r c (f i) hi hr fun h => h2 h]
        rw [if_neg fun h => ?_]
        rcases List.mem_cons.mp h.1 with h3 | h3
        · exact h2 ⟨h3, h.2⟩
        · exact h1 ⟨h3, h.2⟩

theorem entry_foldl_cols [Zero α] (L : List Nat) (m0 : Matrix R C α)
    (g : Nat → Nat → α) (r c : Nat) (hL : ∀ x ∈ L, x < C)
    (hr : r < R) (hc : c < C) :
    entry (L.foldl
        (fun m col =>
          (List.range R).foldl (fun m' row => setEntry m' row col (g row col)) m)
        m0) r c =
      if c ∈ L then g r c else entry m0 r c := by
  induction L generalizing m0 with
  | nil => simp
  | cons i t ih =>
    have hi := hL i (List.mem_cons_self i t)
    rw [List.foldl_cons, ih _ fun x hx => hL x (List.mem_cons_of_mem i hx)]
    by_cases h1 : c ∈ t
    · rw [if_pos h1, if_pos (List.mem_cons_of_mem i h1)]
    · rw [if_neg h1]
      rw [entry_foldl_rows (List.range R) m0 i (fun row => g row i) r c
        (fun x hx => List.mem_range.mp hx) hi hr hc]
      by_cases h2 : c = i
      · subst h2
        rw [if_pos ⟨List.mem_range.mpr hr, rfl⟩, if_pos (List.mem_cons_self c t)]
      · rw [if_neg fun h => h2 h.2, if_neg fun h => ?_]
        rcases List.mem_cons.mp h with h3 | h3
        · exact h2 h3
        · exact h1 h3

/-! ## Characterization of the arithmetic loops -/

theorem mul_entry {AR K BC : Nat} [Zero α] [Add α] [Mul α]
    (a : Matrix AR K α) (b : Matrix K BC α) (i j : Nat) (hi : i < AR) (hj : j < BC) :
    entry (mul a b) i j =
      (List.range K).foldl (fun sum cell => sum + entry a i cell * entry b cell j) 0 := by
  rw [mul, entry_foldl_cols (List.range BC) empty
    (fun row col =>
      (List.range K).foldl (fun sum cell => sum + entry a row cell * entry b cell col) 0)
    i j (fun x hx => List.mem_range.mp hx) hi hj]
  rw [if_pos (List.mem_range.mpr hj)]

theorem identity_elems_entry [Zero α] (v : α) (r c : Nat) (hr : r < R) (hc : c < C) :
    entry (identity_elems v : Matrix R C α) r c = if r = c then v else 0 := by
  rw [identity_elems, entry_foldl_setdiag (List.range (Nat.min R C)) empty v r c
    (fun i hi => ⟨Nat.lt_of_lt_of_le (List.mem_range.mp hi) (Nat.min_le_left R C),
      Nat.lt_of_lt_of_le (List.mem_range.mp hi) (Nat.min_le_right R C)⟩) hr hc]
  by_cases h : r = c
  · subst h
    rw [if_pos ⟨rfl, List.mem_range.mpr (Nat.lt_min.mpr ⟨hr, hc⟩)⟩, if_pos rfl]
  · rw [if_neg fun hh => h hh.1, if_neg h, entry_empty r c hr hc]

/-! ## Column extraction -/

theorem slice_length (m : Matrix R C α) (i : Nat) (hi : i < C) :
    ((m.elems.drop (i * R)).take R).length = R * 1 := by
  rw [List.length_take, List.length_drop, m.size_eq, Nat.mul_one]
  have h1 : (i + 1) * R ≤ C * R := Nat.mul_le_mul_right R hi
  have h2 : (i + 1) * R = i * R + R := Nat.succ_mul i R
  have h3 : C * R = R * C := Nat.mul_comm C R
  omega

theorem cols_getElem [Zero α] (m : Matrix R C α) (i : Nat) (hi : i < C) :
    (cols m)[i]? =
      some (from_array ((m.elems.drop (i * R)).take R) (slice_length m i hi)) := by
  rw [cols, List.getElem?_map]
  rw [List.getElem?_range hi, Option.map_some']
  rw [from_slice, dif_pos (slice_length m i hi)]
  rfl

theorem cols_length [Zero α] (m : Matrix R C α) : (cols m).length = C := by
  rw [cols, List.length_map, List.length_range]

theorem entry_cols [Zero α] (m : Matrix R C α) (i r : Nat) (hi : i < C) (hr : r < R)
    (v : Matrix R 1 α) (hv : (cols m)[i]? = some v) :
    entry v r 0 = entry m r i := by
  rw [cols_getElem m i hi] at hv
  obtain rfl := Option.some.inj hv
  show ((m.elems.drop (i * R)).take R).getD (0 * R + r) 0 = m.elems.getD (i * R + r) 0
  rw [Nat.zero_mul, Nat.zero_add]
  rw [List.getD_eq_getElem?_getD, List.getD_eq_getElem?_getD]
  congr 1
  rw [List.getElem?_take, if_pos hr, List.getElem?_drop]

theorem flatten_chunks {α : Type} (Rn : Nat) :
    ∀ (n : Nat) (l : List α),
      ((List.range n).map fun ci => (l.drop (ci * Rn)).take Rn).flatten =
        l.take (n * Rn) := by
  intro n
  induction n with
  | zero => intro l; simp
  | succ n ih =>
    intro l
    rw [List.range_succ, List.map_append, List.flatten_append, ih l]
    rw [List.map_singleton, List.flatten_cons, List.flatten_nil, List.append_nil]
    rw [Nat.succ_mul, List.take_add]

theorem cols_map_elems [Zero α] (m : Matrix R C α) :
    (cols m).map elems = (List.range C).map fun ci => (m.elems.drop (ci * R)).take R := by
  rw [cols, List.map_map]
  refine List.map_congr_left fun i hi => ?_
  have hi' : i < C := List.mem_range.mp hi
  show ((from_slice ((m.elems.drop (i * R)).take R)).getD empty).elems = _
  rw [from_slice, dif_pos (slice_length m i hi')]
  rfl

theorem from_cols_cols [Zero α] (m : Matrix R C α) :
    from_cols ((cols m).map elems) = some m := by
  rw [from_cols, cols_map_elems, flatten_chunks R C m.elems]
  have htake : m.elems.take (C * R) = m.elems :=
    List.take_of_length_le (by rw [m.size_eq, Nat.mul_comm])
  rw [htake]
  obtain ⟨l, hl⟩ := m
  rw [from_slice, dif_pos hl]
  rfl

end Matrix

/-! ## Scalar facts about the modelled IEEE values -/

namespace F64

theorem zero_def : (0 : F64) = .fin 0 := rfl

theorem one_def : (1 : F64) = .fin 1 := rfl

theorem one_mul_finite (x : F64) (h : x.isFinite = true) : (1 : F64) * x = x := by
  cases x with
  | nan => exact Bool.noConfusion h
  | inf s => exact Bool.noConfusion h
  | negZero =>
    show F64.mul (.fin 1) .negZero = .negZero
    rw [F64.mul, if_pos (by norm_num : (0:ℚ) ≤ 1)]
  | fin q =>
    show F64.mul (.fin 1) (.fin q) = .fin q
    rw [F64.mul]
    by_cases hq : q = 0
    · subst hq
      norm_num
    · rw [if_neg (by simpa using hq), one_mul]

theorem mul_one_finite (x : F64) (h : x.isFinite = true) : x * (1 : F64) = x := by
  cases x with
  | nan => exact Bool.noConfusion h
  | inf s => exact Bool.noConfusion h
  | negZero =>
    show F64.mul .negZero (.fin 1) = .negZero
    rw [F64.mul, if_pos (by norm_num : (0:ℚ) ≤ 1)]
  | fin q =>
    show F64.mul (.fin q) (.fin 1) = .fin q
    rw [F64.mul]
    by_cases hq : q = 0
    · subst hq
      norm_num
    · rw [if_neg (by simpa using hq), mul_one]

theorem zero_mul_zeroish (x : F64) (h : x.isFinite = true) :
    (0 : F64) * x = .fin 0 ∨ (0 : F64) * x = .negZero := by
  cases x with
  | nan => exact Bool.noConfusion h
  | inf s => exact Bool.noConfusion h
  | negZero =>
    right
    show F64.mul (.fin 0) .negZero = .negZero
    rw [F64.mul, if_pos (le_refl (0:ℚ))]
  | fin q =>
    show F64.mul (.fin 0) (.fin q) = .fin 0 ∨ F64.mul (.fin 0) (.fin q) = .negZero
    rw [F64.mul, if_pos (zero_mul q)]
    by_cases hq : (0:ℚ) < 0 ∨ q < 0
    · right
      rw [if_pos hq]
    · left
      rw [if_neg hq]

theorem mul_zero_zeroish (x : F64) (h : x.isFinite = true) :
    x * (0 : F64) = .fin 0 ∨ x * (0 : F64) = .negZero := by
  cases x with
  | nan => exact Bool.noConfusion h
  | inf s => exact Bool.noConfusion h
  | negZero =>
    right
    show F64.mul .negZero (.fin 0) = .negZero
    rw [F64.mul, if_pos (le_refl (0:ℚ))]
  | fin q =>
    show F64.mul (.fin q) (.fin 0) = .fin 0 ∨ F64.mul (.fin q) (.fin 0) = .negZero
    rw [F64.mul, if_pos (mul_zero q)]
    by_cases hq : q < 0 ∨ (0:ℚ) < 0
    · right
      rw [if_pos hq]
    · left
      rw [if_neg hq]

theorem fin_add_zeroish (p : ℚ) (z : F64) (hz : z = .fin 0 ∨ z = .negZero) :
    F64.fin p + z = .fin p := by
  rcases hz with hz | hz
  · subst hz
    show F64.add (.fin p) (.fin 0) = .fin p
    rw [F64.add, add_zero]
  · subst hz
    rfl

theorem fin_zero_add_finite (x : F64) (h : x.isFinite = true) :
    F64.fin 0 + x = .fin x.toQ := by
  cases x with
  | nan => exact Bool.noConfusion h
  | inf s => exact Bool.noConfusion h
  | negZero => rfl
  | fin q =>
    show F64.add (.fin 0) (.fin q) = .fin q
    rw [F64.add, zero_add]

theorem beq_fin_toQ (x : F64) (h : x.isFinite = true) :
    F64.beq (.fin x.toQ) x = true := by
  cases x with
  | nan => exact Bool.noConfusion h
  | inf s => exact Bool.noConfusion h
  | negZero =>
    show ((0:ℚ) == 0) = true
    exact beq_self_eq_true 0
  | fin q =>
    show (q == q) = true
    exact beq_self_eq_true q

theorem beq_nan_self : F64.beq .nan .nan = false := rfl

theorem beq_negZero_posZero : F64.beq .negZero (.fin 0) = true := by
  show ((0:ℚ) == 0) = true
  exact beq_self_eq_true 0

theorem foldl_add_zeroish (t : Nat → F64) (l : List Nat) (p : ℚ)
    (h : ∀ k ∈ l, t k = .fin 0 ∨ t k = .negZero) :
    l.foldl (fun s k => s + t k) (.fin p) = .fin p := by
  induction l with
  | nil => rfl
  | cons k l' ih =>
    rw [List.foldl_cons, fin_add_zeroish p (t k) (h k (List.mem_cons_self k l'))]
    exact ih fun x hx => h x (List.mem_cons_of_mem k hx)

theorem foldl_select (N i : Nat) (hi : i < N) (t : Nat → F64) (p : ℚ)
    (hz : ∀ k, k ≠ i → t k = .fin 0 ∨ t k = .negZero)
    (hstep : F64.fin 0 + t i = .fin p) :
    (List.range N).foldl (fun s k => s + t k) 0 = .fin p := by
  have hN : i + (N - i) = N := Nat.add_sub_cancel' (Nat.le_of_lt hi)
  have hNi : N - i = 1 + (N - i - 1) := by omega
  rw [← hN, List.range_add, List.foldl_append]
  have h0 : (List.range i).foldl (fun s k => s + t k) 0 = F64.fin 0 :=
    foldl_add_zeroish t (List.range i) 0
      fun k hk => hz k (Nat.ne_of_lt (List.mem_range.mp hk))
  rw [h0, hNi, List.range_add, List.map_append, List.foldl_append]
  have h1 : List.map (fun x => i + x) (List.range 1) = [i + 0] := rfl
  rw [h1, List.foldl_cons, List.foldl_nil, Nat.add_zero, hstep, List.map_map]
  refine foldl_add_zeroish t _ p fun k hk => ?_
  obtain ⟨x, _, rfl⟩ := List.mem_map.mp hk
  refine hz _ ?_
  simp only [Function.comp_apply]
  omega

end F64

/-! ## Elementwise characterization of `==` on the backing buffers -/

theorem list_beq_cons {α : Type} [BEq α] (a b : α) (l l' : List α) :
    ((a :: l : List α) == (b :: l')) = ((a == b) && (l == l')) := by
  simp [BEq.beq, List.beq]

theorem list_beq_self_false_of_mem {α : Type} [BEq α] (x : α) (l : List α)
    (hx : (x == x) = false) (hm : x ∈ l) : (l == l) = false := by
  induction l with
  | nil => cases hm
  | cons a t ih =>
    rw [list_beq_cons]
    rcases List.mem_cons.mp hm with h | h
    · subst h
      rw [hx, Bool.false_and]
    · rw [ih h, Bool.and_false]

theorem list_beq_of_forall {α : Type} [BEq α] :
    ∀ (l l' : List α), l.length = l'.length →
      (∀ i (h1 : i < l.length) (h2 : i < l'.length), (l.get ⟨i, h1⟩ == l'.get ⟨i, h2⟩) = true) →
      (l == l') = true := by
  intro l
  induction l with
  | nil =>
    intro l' hlen _
    cases l' with
    | nil => rfl
    | cons b t' => cases hlen
  | cons a t ih =>
    intro l' hlen h
    cases l' with
    | nil => cases hlen
    | cons b t' =>
      rw [list_beq_cons]
      have h0 : (a == b) = true := h 0 (Nat.succ_pos _) (Nat.succ_pos _)
      rw [h0, Bool.true_and]
      refine ih t' (by simpa using hlen) fun i h1 h2 => ?_
      exact h (i + 1) (Nat.succ_lt_succ h1) (Nat.succ_lt_succ h2)

/-! ## Further matrix entry lemmas used for the multiplicative-identity claim -/

namespace Matrix

variable {R C : Nat} {α : Type}

theorem entry_oob [Zero α] (m : Matrix R C α) (r c : Nat)
    (h : R * C ≤ c * R + r) : entry m r c = 0 := by
  refine List.getD_eq_default m.elems 0 ?_
  rw [m.size_eq]
  exact h

theorem entry_finite (a : Matrix R C F64)
    (h : ∀ x ∈ a.elems, F64.isFinite x = true) (r c : Nat) :
    (entry a r c).isFinite = true := by
  by_cases hlt : c * R + r < a.elems.length
  · exact h _ (list_getD_mem a.elems _ 0 hlt)
  · rw [entry, List.getD_eq_default a.elems _ (Nat.le_of_not_lt hlt)]
    rfl

theorem mem_identity_elems [Zero α] (v x : α)
    (hx : x ∈ (identity_elems v : Matrix R C α).elems) : x = v ∨ x = 0 := by
  rw [identity_elems] at hx
  have key : ∀ (l : List Nat) (m : Matrix R C α),
      (∀ y ∈ m.elems, y = v ∨ y = 0) →
      ∀ y ∈ (l.foldl (fun m i => setEntry m i i v) m).elems, y = v ∨ y = 0 := by
    intro l
    induction l with
    | nil => intro m hm y hy; exact hm y hy
    | cons i t ih =>
      intro m hm y hy
      rw [List.foldl_cons] at hy
      refine ih (setEntry m i i v) (fun z hz => ?_) y hy
      rcases List.mem_or_eq_of_mem_set hz with h | h
      · exact hm z h
      · exact Or.inl h
  refine key (List.range (Nat.min R C)) empty (fun y hy => Or.inr ?_) x hx
  exact List.eq_of_mem_replicate hy

theorem default_elems_finite {N : Nat} :
    ∀ x ∈ (default N N F64).elems, F64.isFinite x = true := by
  intro x hx
  rcases mem_identity_elems 1 x hx with h1 | h1 <;> subst h1 <;> rfl

theorem entry_default_finite {N : Nat} (r c : Nat) :
    (entry (default N N F64) r c).isFinite = true :=
  entry_finite _ default_elems_finite r c

theorem elems_get_eq_entry [Zero α] (m : Matrix R C α) (n : Nat)
    (hn : n < m.elems.length) :
    m.elems.get ⟨n, hn⟩ = entry m (n % R) (n / R) := by
  have hR : 0 < R := by
    rcases Nat.eq_zero_or_pos R with h | h
    · rw [m.size_eq, h, Nat.zero_mul] at hn
      cases hn
    · exact h
  have hslot : n / R * R + n % R = n := by
    rw [Nat.mul_comm]
    exact Nat.div_add_mod n R
  rw [entry, hslot, list_getD_eq m.elems n 0 hn]

theorem matEq_of_forall_entry [Zero α] [BEq α] (m m' : Matrix R C α)
    (h : ∀ r c, r < R → c < C → ((entry m r c) == (entry m' r c)) = true) :
    matEq m m' = true := by
  rw [matEq]
  refine list_beq_of_forall m.elems m'.elems (by rw [m.size_eq, m'.size_eq])
    fun n h1 h2 => ?_
  have hR : 0 < R := by
    rcases Nat.eq_zero_or_pos R with hz | hp
    · rw [m.size_eq, hz, Nat.zero_mul] at h1
      cases h1
    · exact hp
  have hnRC : n < R * C := by rw [← m.size_eq]; exact h1
  rw [elems_get_eq_entry m n h1, elems_get_eq_entry m' n h2]
  exact h _ _ (Nat.mod_lt n hR) (Nat.div_lt_of_lt_mul hnRC)

theorem entry_default_diag {N : Nat} (i k : Nat) (hi : i < N) (hk : k < N) :
    entry (default N N F64) i k = if i = k then 1 else 0 :=
  identity_elems_entry 1 i k hi hk

theorem entry_default_oob_col {N : Nat} (i k : Nat) (hk : N ≤ k) :
    entry (default N N F64) i k = 0 := by
  refine entry_oob _ i k ?_
  have h1 : N * N ≤ k * N := Nat.mul_le_mul_right N hk
  omega

theorem entry_oob_row_any {R C : Nat} (a : Matrix R C F64) (i k : Nat)
    (hk : C ≤ k) : entry a i k = 0 := by
  refine entry_oob a i k ?_
  have h1 : C * R ≤ k * R := Nat.mul_le_mul_right R hk
  have h2 : C * R = R * C := Nat.mul_comm C R
  omega

theorem beq_entry_default_mul {N : Nat} (a : Matrix N N F64)
    (h : ∀ x ∈ a.elems, F64.isFinite x = true)
    (i j : Nat) (hi : i < N) (hj : j < N) :
    F64.beq (entry (mul (default N N F64) a) i j) (entry a i j) = true := by
  have hx := entry_finite a h i j
  have h1 : entry (mul (default N N F64) a) i j = .fin ((entry a i j).toQ) := by
    rw [mul_entry (default N N F64) a i j hi hj]
    refine F64.foldl_select N i hi
      (fun k => entry (default N N F64) i k * entry a k j) _ ?_ ?_
    · intro k hk
      have hne := entry_finite a h k j
      show entry (default N N F64) i k * entry a k j = F64.fin 0 ∨
        entry (default N N F64) i k * entry a k j = F64.negZero
      by_cases hkN : k < N
      · rw [entry_default_diag i k hi hkN, if_neg fun he => hk he.symm]
        exact F64.zero_mul_zeroish _ hne
      · rw [entry_default_oob_col i k (Nat.le_of_not_lt hkN)]
        exact F64.zero_mul_zeroish _ hne
    · show F64.fin 0 + entry (default N N F64) i i * entry a i j =
        F64.fin (entry a i j).toQ
      rw [entry_default_diag i i hi hi, if_pos rfl, F64.one_mul_finite _ hx]
      exact F64.fin_zero_add_finite _ hx
  rw [h1]
  exact F64.beq_fin_toQ _ hx

theorem beq_entry_mul_default {N : Nat} (a : Matrix N N F64)
    (h : ∀ x ∈ a.elems, F64.isFinite x = true)
    (i j : Nat) (hi : i < N) (hj : j < N) :
    F64.beq (entry (mul a (default N N F64)) i j) (entry a i j) = true := by
  have hx := entry_finite a h i j
  have h1 : entry (mul a (default N N F64)) i j = .fin ((entry a i j).toQ) := by
    rw [mul_entry a (default N N F64) i j hi hj]
    refine F64.foldl_select N j hj
      (fun k => entry a i k * entry (default N N F64) k j) _ ?_ ?_
    · intro k hk
      show entry a i k * entry (default N N F64) k j = F64.fin 0 ∨
        entry a i k * entry (default N N F64) k j = F64.negZero
      by_cases hkN : k < N
      · rw [entry_default_diag k j hkN hj, if_neg hk]
        exact F64.mul_zero_zeroish _ (entry_finite a h i k)
      · rw [entry_oob_row_any a i k (Nat.le_of_not_lt hkN)]
        exact F64.zero_mul_zeroish _ (entry_default_finite k j)
    · show F64.fin 0 + entry a i j * entry (default N N F64) j j =
        F64.fin (entry a i j).toQ
      rw [entry_default_diag j j hj hj, if_pos rfl, F64.mul_one_finite _ hx]
      exact F64.fin_zero_add_finite _ hx
  rw [h1]
  exact F64.beq_fin_toQ _ hx

/-- An infinite entry also falsifies neutrality of the default matrix even
with no `NaN` entry anywhere: the `(1,0)` entry of `default() * a` for
`a = [[∞, -0.0], [-0.0, -0.0]]` is `0.0 + 0.0 * ∞ + 1.0 * (-0.0) = NaN`,
so the product does not compare equal to `a`.  This is why the finiteness
hypothesis of the neutrality theorem excludes the infinities and not merely
`NaN`. -/
theorem default_mul_inf_entry_ne :
    matEq
      (mul (default 2 2 F64)
        (⟨[F64.inf false, F64.negZero, F64.negZero, F64.negZero], rfl⟩ :
          Matrix 2 2 F64))
      (⟨[F64.inf false, F64.negZero, F64.negZero, F64.negZero], rfl⟩ :
        Matrix 2 2 F64)
      = false := by
  decide

end Matrix

/-! ## The claims -/

/-- C1: for matrices `a : Matrix AR K` and `b : Matrix K BC`, multiplication
is defined exactly on the shape-compatible pair and the element of `a * b`
at `(i, j)` (for `i < AR`, `j < BC`) is the sum over `k = 0..K` of
`a[i,k] * b[k,j]`, accumulated left-to-right starting from `0.0` (the
scalar `+`/`*` are abstract, so the fold fixes the accumulation order). -/
theorem claim1_mul_accumulation {AR K BC : Nat} {α : Type} [Zero α] [Add α] [Mul α]
    (a : Matrix AR K α) (b : Matrix K BC α) (i j : Nat) (hi : i < AR) (hj : j < BC) :
    Matrix.get (Matrix.mul a b) i j =
      some ((List.range K).foldl
        (fun sum cell => sum + Matrix.entry a i cell * Matrix.entry b cell j) 0) := by
  rw [Matrix.get_eq_entry _ i j hi hj, Matrix.mul_entry a b i j hi hj]

/-- Witness for C1 at a concrete `2×2` integer instance. -/
theorem claim1_witness :
    (0 < 2 ∧ 1 < 2) ∧
      Matrix.get
        (Matrix.mul (⟨[1, 2, 3, 4], rfl⟩ : Matrix 2 2 Int)
          (⟨[5, 6, 7, 8], rfl⟩ : Matrix 2 2 Int)) 0 1 =
        some ((List.range 2).foldl
          (fun sum cell =>
            sum + Matrix.entry (⟨[1, 2, 3, 4], rfl⟩ : Matrix 2 2 Int) 0 cell *
              Matrix.entry (⟨[5, 6, 7, 8], rfl⟩ : Matrix 2 2 Int) cell 1) 0) :=
  ⟨⟨by decide, by decide⟩,
    claim1_mul_accumulation (⟨[1, 2, 3, 4], rfl⟩ : Matrix 2 2 Int)
      (⟨[5, 6, 7, 8], rfl⟩ : Matrix 2 2 Int) 0 1 (by decide) (by decide)⟩

/-- C2: `get` returns `none` exactly when `row ≥ R` or `col ≥ C` and
otherwise the element at the fixed linearization slot `col*R + row` of the
backing buffer; the mutable counterpart has identical bounds semantics and
writes the same slot. -/
theorem claim2_get_bounds {R C : Nat} {α : Type} [Zero α] (m : Matrix R C α)
    (row col : Nat) (v : α) :
    (Matrix.get m row col = none ↔ R ≤ row ∨ C ≤ col) ∧
    (row < R → col < C →
      Matrix.get m row col = some (m.elems.getD (col * R + row) 0)) ∧
    (Matrix.setViaGetMut m row col v = none ↔ R ≤ row ∨ C ≤ col) ∧
    (row < R → col < C →
      ∃ m', Matrix.setViaGetMut m row col v = some m' ∧
        m'.elems = m.elems.set (col * R + row) v) := by
  by_cases hr : row < R <;> by_cases hc : col < C <;>
    simp [Matrix.get, Matrix.setViaGetMut, Matrix.index, hr, hc] <;> omega

/-- Witness for C2: in- and out-of-bounds accesses on a concrete `2×2`
integer matrix. -/
theorem claim2_witness :
    (Matrix.get (⟨[1, 2, 3, 4], rfl⟩ : Matrix 2 2 Int) 5 5 = none ↔
      2 ≤ 5 ∨ 2 ≤ 5) ∧
    Matrix.get (⟨[1, 2, 3, 4], rfl⟩ : Matrix 2 2 Int) 0 1 =
      some (([1, 2, 3, 4] : List Int).getD (1 * 2 + 0) 0) ∧
    ∃ m', Matrix.setViaGetMut (⟨[1, 2, 3, 4], rfl⟩ : Matrix 2 2 Int) 0 1 9 =
        some m' ∧ m'.elems = ([1, 2, 3, 4] : List Int).set (1 * 2 + 0) 9 := by
  refine ⟨(claim2_get_bounds (⟨[1, 2, 3, 4], rfl⟩ : Matrix 2 2 Int) 5 5 9).1, ?_, ?_⟩
  · exact (claim2_get_bounds (⟨[1, 2, 3, 4], rfl⟩ : Matrix 2 2 Int) 0 1 9).2.1
      (by decide) (by decide)
  · exact (claim2_get_bounds (⟨[1, 2, 3, 4], rfl⟩ : Matrix 2 2 Int) 0 1 9).2.2.2
      (by decide) (by decide)

/-- C3: in bounds, the panicking accessor returns exactly the slot `get`
addresses; out of bounds it fails with the message naming row, column and
both dimensions, and so does its mutable counterpart; tuple indexing (both
forms) is exactly the panicking accessor — no clamping or wrapping. -/
theorem claim3_panic_access {R C : Nat} {α : Type} [Zero α] (m : Matrix R C α)
    (row col : Nat) (v : α) :
    (row < R → col < C →
      Matrix.getOrPanic m row col = .ok (m.elems.getD (col * R + row) 0) ∧
      ∀ x, Matrix.getOrPanic m row col = .ok x ↔ Matrix.get m row col = some x) ∧
    (R ≤ row ∨ C ≤ col →
      Matrix.getOrPanic m row col = .error (Matrix.bounds_panic_msg R C row col) ∧
      Matrix.setOrPanic m row col v =
        .error (Matrix.bounds_panic_msg R C row col)) ∧
    (∀ m', Matrix.setOrPanic m row col v = .ok m' ↔
      Matrix.setViaGetMut m row col v = some m') ∧
    Matrix.bounds_panic_msg R C row col =
      "matrix index " ++ toString row ++ "," ++ toString col ++
        " out of bounds for matrix of size " ++ toString R ++ "x" ++ toString C ∧
    Matrix.indexTuple m (row, col) = Matrix.getOrPanic m row col ∧
    Matrix.indexTupleSet m (row, col) v = Matrix.setOrPanic m row col v := by
  refine ⟨?_, ?_, ?_, rfl, rfl, rfl⟩
  · intro hr hc
    constructor
    · simp [Matrix.getOrPanic, Matrix.index, hr, hc]
    · intro x
      simp [Matrix.getOrPanic, Matrix.get, Matrix.index, hr, hc]
  · intro hout
    have hb : (row < R && col < C) = false := by
      rcases hout with h | h <;> simp <;> omega
    constructor
    · simp [Matrix.getOrPanic, Matrix.index, hb]
    · simp [Matrix.setOrPanic, Matrix.index, hb]
  · intro m'
    by_cases hr : row < R <;> by_cases hc : col < C <;>
      simp [Matrix.setOrPanic, Matrix.setViaGetMut, Matrix.index, hr, hc]

/-- Witness for C3: spec scenario 4, a `2×2` matrix accessed at `(5,5)`
fails fast with the message naming row `5`, column `5` and size `2x2`,
while `(0,1)` succeeds on the same slot `get` reads. -/
theorem claim3_witness :
    Matrix.getOrPanic (⟨[1, 2, 3, 4], rfl⟩ : Matrix 2 2 Int) 5 5 =
      .error "matrix index 5,5 out of bounds for matrix of size 2x2" ∧
    Matrix.getOrPanic (⟨[1, 2, 3, 4], rfl⟩ : Matrix 2 2 Int) 0 1 =
      .ok (([1, 2, 3, 4] : List Int).getD (1 * 2 + 0) 0) := by
  constructor
  · have h := ((claim3_panic_access (⟨[1, 2, 3, 4], rfl⟩ : Matrix 2 2 Int) 5 5
      9).2.1 (Or.inl (by decide))).1
    rw [h]
    rfl
  · exact ((claim3_panic_access (⟨[1, 2, 3, 4], rfl⟩ : Matrix 2 2 Int) 0 1
      9).1 (by decide) (by decide)).1

/-- C4: `from_slice` constructs a matrix wrapping the elements in order
exactly when the slice has length `R*C`, and returns `none` (no partial
state) whenever the length differs. -/
theorem claim4_from_slice {R C : Nat} {α : Type} (l : List α) :
    ((Matrix.from_slice l : Option (Matrix R C α)) = none ↔ l.length ≠ R * C) ∧
    (∀ m', (Matrix.from_slice l : Option (Matrix R C α)) = some m' →
      m'.elems = l) ∧
    (∀ h : l.length = R * C,
      (Matrix.from_slice l : Option (Matrix R C α)) =
        some (Matrix.from_array l h)) := by
  refine ⟨?_, ?_, ?_⟩
  · by_cases h : l.length = R * C <;> simp [Matrix.from_slice, h]
  · intro m' hm
    by_cases h : l.length = R * C
    · rw [Matrix.from_slice, dif_pos h] at hm
      obtain rfl := Option.some.inj hm
      rfl
    · rw [Matrix.from_slice, dif_neg h] at hm
      cases hm
  · intro h
    rw [Matrix.from_slice, dif_pos h]

/-- Witness for C4: spec scenario 5, three elements do not construct a
`2×2` matrix, four do. -/
theorem claim4_witness :
    ((Matrix.from_slice [1, 2, 3] : Option (Matrix 2 2 Int)) = none ↔
      ([1, 2, 3] : List Int).length ≠ 2 * 2) ∧
    (Matrix.from_slice [1, 2, 3, 4] : Option (Matrix 2 2 Int)) =
      some (Matrix.from_array [1, 2, 3, 4] (by decide)) :=
  ⟨(claim4_from_slice [1, 2, 3]).1,
    (claim4_from_slice [1, 2, 3, 4]).2.2 (by decide)⟩

/-- C5: reconstructing a matrix from its extracted columns is the identity:
`from_cols` applied to the (backing arrays of the) vectors produced by
`cols` yields the original matrix. -/
theorem claim5_from_cols_cols {R C : Nat} {α : Type} [Zero α] (m : Matrix R C α) :
    Matrix.from_cols ((Matrix.cols m).map Matrix.elems) = some m :=
  Matrix.from_cols_cols m

/-- C6: `cols` returns the `C` columns in order: the `i`-th vector holds
`a`'s column `i`, its element at row `r` being `a`'s element at `(r, i)`. -/
theorem claim6_cols {R C : Nat} {α : Type} [Zero α] (m : Matrix R C α) (i : Nat)
    (hi : i < C) :
    (Matrix.cols m).length = C ∧
    ∃ v : Matrix R 1 α, (Matrix.cols m)[i]? = some v ∧
      ∀ r, r < R → Matrix.get v r 0 = Matrix.get m r i := by
  refine ⟨Matrix.cols_length m, _, Matrix.cols_getElem m i hi, fun r hr => ?_⟩
  rw [Matrix.get_eq_entry _ r 0 hr (by norm_num), Matrix.get_eq_entry m r i hr hi,
    Matrix.entry_cols m i r hi hr _ (Matrix.cols_getElem m i hi)]

/-- Witness for C6 on a concrete `2×2` integer matrix, column `1`. -/
theorem claim6_witness :
    1 < 2 ∧
      ((Matrix.cols (⟨[1, 2, 3, 4], rfl⟩ : Matrix 2 2 Int)).length = 2 ∧
        ∃ v : Matrix 2 1 Int,
          (Matrix.cols (⟨[1, 2, 3, 4], rfl⟩ : Matrix 2 2 Int))[1]? = some v ∧
            ∀ r, r < 2 →
              Matrix.get v r 0 =
                Matrix.get (⟨[1, 2, 3, 4], rfl⟩ : Matrix 2 2 Int) r 1) :=
  ⟨by decide, claim6_cols (⟨[1, 2, 3, 4], rfl⟩ : Matrix 2 2 Int) 1 (by decide)⟩

/-- C7: `identity_elems v` has `v` on the diagonal and `0.0` elsewhere,
`identity` is `identity_elems 1.0`, and the default-constructed matrix is
`identity`. -/
theorem claim7_identity {R C : Nat} {α : Type} [Zero α] [One α] (v : α) (r c : Nat)
    (hr : r < R) (hc : c < C) :
    Matrix.entry (Matrix.identity_elems v : Matrix R C α) r c =
      (if r = c then v else 0) ∧
    (Matrix.identity : Matrix R C α) = Matrix.identity_elems 1 ∧
    Matrix.default R C α = (Matrix.identity : Matrix R C α) :=
  ⟨Matrix.identity_elems_entry v r c hr hc, rfl, rfl⟩

/-- Witness for C7 at a concrete `2×3` integer instance. -/
theorem claim7_witness :
    (0 < 2 ∧ 1 < 3) ∧
      (Matrix.entry (Matrix.identity_elems 5 : Matrix 2 3 Int) 0 1 =
          (if 0 = 1 then (5 : Int) else 0) ∧
        (Matrix.identity : Matrix 2 3 Int) = Matrix.identity_elems 1 ∧
        Matrix.default 2 3 Int = (Matrix.identity : Matrix 2 3 Int)) :=
  ⟨⟨by decide, by decide⟩, claim7_identity 5 0 1 (by decide) (by decide)⟩

/-- C8: writing `v` through the mutable accessor at a valid `(r, c)` then
reading back at `(r, c)` yields `v`, and every other valid slot is
unchanged. -/
theorem claim8_write_read {R C : Nat} {α : Type} [Zero α] (m : Matrix R C α)
    (r c : Nat) (v : α) (hr : r < R) (hc : c < C) :
    ∃ m', Matrix.setViaGetMut m r c v = some m' ∧
      Matrix.get m' r c = some v ∧
      ∀ r' c', r' < R → c' < C → ¬(r' = r ∧ c' = c) →
        Matrix.get m' r' c' = Matrix.get m r' c' := by
  refine ⟨Matrix.setEntry m r c v, ?_, ?_, ?_⟩
  · simp [Matrix.setViaGetMut, Matrix.index, hr, hc, Matrix.setEntry]
  · rw [Matrix.get_eq_entry _ r c hr hc, Matrix.entry_setEntry_self m r c v hr hc]
  · intro r' c' hr' hc' hne
    rw [Matrix.get_eq_entry _ r' c' hr' hc', Matrix.get_eq_entry m r' c' hr' hc',
      Matrix.entry_setEntry_ne m r c r' c' v hr hr' hne]

/-- Witness for C8 on a concrete `2×2` integer matrix. -/
theorem claim8_witness :
    (0 < 2 ∧ 1 < 2) ∧
      ∃ m', Matrix.setViaGetMut (⟨[1, 2, 3, 4], rfl⟩ : Matrix 2 2 Int) 0 1 9 =
          some m' ∧
        Matrix.get m' 0 1 = some 9 ∧
        ∀ r' c', r' < 2 → c' < 2 → ¬(r' = 0 ∧ c' = 1) →
          Matrix.get m' r' c' =
            Matrix.get (⟨[1, 2, 3, 4], rfl⟩ : Matrix 2 2 Int) r' c' :=
  ⟨⟨by decide, by decide⟩,
    claim8_write_read (⟨[1, 2, 3, 4], rfl⟩ : Matrix 2 2 Int) 0 1 9
      (by decide) (by decide)⟩

/-- C9 (counterexample): over IEEE doubles the claim fails as stated — for
the `1×1` matrix holding `NaN`, `default() * a` is not equal to `a` under
the `PartialEq` of the type, since the product entry is `NaN` and
`NaN == NaN` is false. -/
theorem claim9_counterexample :
    Matrix.matEq
      (Matrix.mul (Matrix.default 1 1 F64) (⟨[F64.nan], rfl⟩ : Matrix 1 1 F64))
      (⟨[F64.nan], rfl⟩ : Matrix 1 1 F64) = false := by
  decide

/-- C9 (amended): the default matrix is a multiplicative neutral element on
every square matrix all of whose entries are finite (no `NaN` and no
infinity — an infinite entry also breaks the claim, since `0.0 * ∞ = NaN`):
both `default() * a` and `a * default()` compare equal to `a` under the
type's `==`. -/
theorem claim9_amended {N : Nat} (a : Matrix N N F64)
    (h : ∀ x ∈ a.elems, F64.isFinite x = true) :
    Matrix.matEq (Matrix.mul (Matrix.default N N F64) a) a = true ∧
    Matrix.matEq (Matrix.mul a (Matrix.default N N F64)) a = true := by
  constructor
  · exact Matrix.matEq_of_forall_entry _ _ fun r c hr hc =>
      Matrix.beq_entry_default_mul a h r c hr hc
  · exact Matrix.matEq_of_forall_entry _ _ fun r c hr hc =>
      Matrix.beq_entry_mul_default a h r c hr hc

/-- Witness for the amended C9 on a concrete `2×2` matrix of finite
values. -/
theorem claim9_witness :
    (∀ x ∈ ([F64.fin 1, F64.fin 2, F64.fin 3, F64.fin 4] : List F64),
      F64.isFinite x = true) ∧
      (Matrix.matEq
          (Matrix.mul (Matrix.default 2 2 F64)
            (⟨[F64.fin 1, F64.fin 2, F64.fin 3, F64.fin 4], rfl⟩ : Matrix 2 2 F64))
          (⟨[F64.fin 1, F64.fin 2, F64.fin 3, F64.fin 4], rfl⟩ : Matrix 2 2 F64)
            = true ∧
        Matrix.matEq
          (Matrix.mul
            (⟨[F64.fin 1, F64.fin 2, F64.fin 3, F64.fin 4], rfl⟩ : Matrix 2 2 F64)
            (Matrix.default 2 2 F64))
          (⟨[F64.fin 1, F64.fin 2, F64.fin 3, F64.fin 4], rfl⟩ : Matrix 2 2 F64)
            = true) :=
  ⟨by intro x hx; fin_cases hx <;> rfl,
    claim9_amended
      (⟨[F64.fin 1, F64.fin 2, F64.fin 3, F64.fin 4], rfl⟩ : Matrix 2 2 F64)
      (by intro x hx; fin_cases hx <;> rfl)⟩

/-- C10: matrix equality is not reflexive — a matrix with a `NaN` element
compares unequal to itself, while `-0.0` and `+0.0` entries compare equal
despite being distinct values. -/
theorem claim10_eq_not_reflexive {R C : Nat} (m : Matrix R C F64)
    (h : F64.nan ∈ m.elems) :
    Matrix.matEq m m = false ∧
    Matrix.matEq (⟨[F64.negZero], rfl⟩ : Matrix 1 1 F64)
      (⟨[F64.fin 0], rfl⟩ : Matrix 1 1 F64) = true ∧
    F64.negZero ≠ F64.fin 0 := by
  refine ⟨list_beq_self_false_of_mem F64.nan m.elems rfl h, by decide, by decide⟩

/-- Witness for C10 at the `1×1` matrix holding `NaN`. -/
theorem claim10_witness :
    F64.nan ∈ ([F64.nan] : List F64) ∧
      (Matrix.matEq (⟨[F64.nan], rfl⟩ : Matrix 1 1 F64)
          (⟨[F64.nan], rfl⟩ : Matrix 1 1 F64) = false ∧
        Matrix.matEq (⟨[F64.negZero], rfl⟩ : Matrix 1 1 F64)
          (⟨[F64.fin 0], rfl⟩ : Matrix 1 1 F64) = true ∧
        F64.negZero ≠ F64.fin 0) :=
  ⟨List.mem_singleton.mpr rfl,
    claim10_eq_not_reflexive (⟨[F64.nan], rfl⟩ : Matrix 1 1 F64)
      (List.mem_singleton.mpr rfl)⟩

end CjMatrixFun
